import Mathlib

/-!
Shallow embedding of the file-explorer core (src-tauri/src/main.rs).

The persistent index (SQLite table `main_table`) is modelled as a
`List FileMeta` in insertion order.  The SQL `LIKE` operator (with and
without an `ESCAPE` clause) is modelled by `likeMatch`, following SQLite's
semantics: `%` matches any sequence of characters, `_` matches exactly one
character, the escape character makes the following pattern character
literal, and ordinary characters compare ASCII-case-insensitively.
-/

/-- One row of `main_table`: the record produced by `get_file_meta`. -/
structure FileMeta where
  name : String
  path : String
  extension : Option String
  size : Nat
  modified : Nat
deriving DecidableEq, Repr

/-- SQLite LIKE character comparison: ASCII-case-insensitive equality
(`sqlite3UpperToLower` folds only `A`-`Z`; `Char.toLower` does the same). -/
def likeCharEq (a b : Char) : Bool :=
  a.toLower == b.toLower

/-- All suffixes of a list, longest first, ending with `[]`. -/
def suffixes : List Char → List (List Char)
  | [] => [[]]
  | c :: rest => (c :: rest) :: suffixes rest

/-- SQLite `LIKE` matching (pattern against string), with an optional
`ESCAPE` character.  `%` matches any sequence, `_` one character, an
escaped pattern character is matched literally; comparison of ordinary
characters is ASCII-case-insensitive.  Faithful for escape characters
that are not themselves `%` or `_` (here the escape is `\` or absent). -/
def likeMatch (esc : Option Char) : List Char → List Char → Bool
  | [], s => s.isEmpty
  | c :: p, s =>
    if esc = some c then
      match p, s with
      | c2 :: p2, a :: s2 => likeCharEq c2 a && likeMatch esc p2 s2
      | _, _ => false
    else if c = '%' then
      (suffixes s).any (likeMatch esc p)
    else if c = '_' then
      match s with
      | [] => false
      | _ :: s2 => likeMatch esc p s2
    else
      match s with
      | [] => false
      | a :: s2 => likeCharEq c a && likeMatch esc p s2

/-- Number of path-separator characters (`\`) in a path, as computed by
the SQL expression `LENGTH(path) - LENGTH(REPLACE(path, '\', ''))`. -/
def countBS (l : List Char) : Nat :=
  l.count '\\'

/-- `dir.trim_end_matches('\\')` from `list_children`: removes every
trailing backslash. -/
def normDirChars (l : List Char) : List Char :=
  (l.reverse.dropWhile (fun c => c == '\\')).reverse

/-- `norm_dir.replace("\\", "\\\\")` from `list_children`: doubles each
backslash so that the path's own separators survive the `ESCAPE '\'`
clause. -/
def escapeBackslashes : List Char → List Char
  | [] => []
  | c :: rest =>
    if c = '\\' then '\\' :: '\\' :: escapeBackslashes rest
    else c :: escapeBackslashes rest

/-- The LIKE pattern built by `list_children`:
`format!("{}\\%", norm_dir.replace("\\", "\\\\"))`, i.e. the escaped
directory followed by the two characters `\` and `%`. -/
def childLikePattern (dir : String) : List Char :=
  escapeBackslashes (normDirChars dir.data) ++ ['\\', '%']

/-- `target_slash_count` from `list_children`: separator count of the
normalized directory plus one. -/
def targetSlashCount (dir : String) : Nat :=
  countBS (normDirChars dir.data) + 1

/-- The row-collection step shared by `list_children` and `search_files`:
`rows.filter_map(Result::ok)` — rows whose extraction failed are dropped
silently, never turning the call into an error. -/
def collectRows (rows : List (Except Unit FileMeta)) : List FileMeta :=
  rows.filterMap (fun r =>
    match r with
    | Except.ok m => some m
    | Except.error _ => none)

/-- The result set of `list_children`'s SQL query:
`path LIKE ?1 ESCAPE '\' AND (separator count of path) = ?2`. -/
def listChildrenMatches (db : List FileMeta) (dir : String) : List FileMeta :=
  db.filter (fun r =>
    likeMatch (some '\\') (childLikePattern dir) r.path.data &&
      countBS r.path.data == targetSlashCount dir)

/-- `list_children`: the SQL query followed by `filter_map(Result::ok)`
(here every row extraction succeeds). -/
def listChildren (db : List FileMeta) (dir : String) : List FileMeta :=
  collectRows ((listChildrenMatches db dir).map Except.ok)

/-- The LIKE pattern built by `search_files`: `format!("%{}%", name)`. -/
def searchLikePattern (name : String) : List Char :=
  '%' :: name.data ++ ['%']

/-- The result set of `search_files`' SQL query: `name LIKE '%..%'`,
plus `extension = ?2` when the extension argument is non-empty
(SQL `=` never matches a NULL extension, and compares case-sensitively). -/
def searchFilesMatches (db : List FileMeta) (name extension : String) :
    List FileMeta :=
  if extension = "" then
    db.filter (fun r => likeMatch none (searchLikePattern name) r.name.data)
  else
    db.filter (fun r =>
      likeMatch none (searchLikePattern name) r.name.data &&
        r.extension == some extension)

/-- `search_files`: the SQL query followed by `filter_map(Result::ok)`. -/
def searchFiles (db : List FileMeta) (name extension : String) :
    List FileMeta :=
  collectRows ((searchFilesMatches db name extension).map Except.ok)

/-- `get_directory_size`: `SELECT COALESCE(SUM(size), 0) FROM main_table
WHERE path LIKE ?1 || '%'` (no ESCAPE clause). -/
def getDirectorySize (db : List FileMeta) (path : String) : Nat :=
  ((db.filter (fun r => likeMatch none (path.data ++ ['%']) r.path.data)).map
    (fun r => r.size)).sum

/-- Splits a path on the separator `\` (model of the component view used
by Rust's `Path` on Windows). -/
def splitOnBS : List Char → List (List Char)
  | [] => [[]]
  | c :: rest =>
    let r := splitOnBS rest
    if c = '\\' then [] :: r
    else
      match r with
      | [] => [[c]]
      | h :: t => (c :: h) :: t

/-- Model of `Path::file_name` for plain Windows paths (no drive or UNC
prefix): the last non-empty, non-`.` component; `None` when the path is
empty or ends in `..`. -/
def fileNameOf (path : String) : Option String :=
  let comps := (splitOnBS path.data).filter
    (fun c => !c.isEmpty && !(c == ['.']))
  match comps.getLast? with
  | none => none
  | some c => if c = ['.', '.'] then none else some (String.mk c)

/-- Splits a character list around its last `.`: returns
`some (before, after)` when a dot is present, `none` otherwise
(model of the `rsplitn(2, '.')` used by Rust's `Path::extension`). -/
def splitAtLastDot : List Char → Option (List Char × List Char)
  | [] => none
  | c :: rest =>
    match splitAtLastDot rest with
    | some (b, a) => some (c :: b, a)
    | none => if c = '.' then some ([], rest) else none

/-- Model of Rust `Path::extension` applied to a file name (the
`rsplit_file_at_dot` logic of the standard library): the portion after
the last `.`, absent when there is no dot, when the only dot is the
leading one, or for the special name `..`. -/
def extensionOfFileName (n : String) : Option String :=
  if n = ".." then none
  else
    match splitAtLastDot n.data with
    | none => none
    | some (before, after) =>
      if before = [] then none else some (String.mk after)

/-- The part of `fs::metadata` that `get_file_meta` consumes: the byte
length, and the modification time as whole seconds relative to the Unix
epoch (`none` when `metadata.modified()` itself returns an error). -/
structure SysMetadata where
  len : Nat
  modified : Option Int
deriving DecidableEq, Repr

/-- `get_file_meta`: stat the path (`none` models a failing
`fs::metadata`), propagate an error from `metadata.modified()?`, clamp a
pre-epoch modification time to 0 via
`duration_since(UNIX_EPOCH).unwrap_or_default()`, and derive name and
extension from the final path component. -/
def getFileMeta (stat : Option SysMetadata) (path : String) :
    Except Unit FileMeta :=
  match stat with
  | none => Except.error ()
  | some md =>
    match md.modified with
    | none => Except.error ()
    | some t =>
      Except.ok
        { name := (fileNameOf path).getD ""
          path := path
          extension :=
            match fileNameOf path with
            | none => none
            | some n => extensionOfFileName n
          size := md.len
          modified := if t < 0 then 0 else t.toNat }

/-- `insert_file_meta`: `INSERT OR REPLACE` keyed by the UNIQUE `path`
column — the conflicting row (if any) is removed and the new row stored. -/
def insertFileMeta (db : List FileMeta) (m : FileMeta) : List FileMeta :=
  db.filter (fun r => !(r.path == m.path)) ++ [m]

/-- Case-sensitive substring containment (Rust `str::contains` with a
string pattern). -/
def litContains (needle : List Char) : List Char → Bool
  | [] => needle.isEmpty
  | a :: rest => needle.isPrefixOf (a :: rest) || litContains needle rest

/-- The hardcoded `skip_keywords` of `transfer_to_sqlite`. -/
def skipKeywords : List String :=
  ["CloudStore", "OneDrive", "System Volume Information"]

/-- The crawl's exclusion filter: the entry's full path contains one of
the skip keywords as a literal substring. -/
def containsSkipKeyword (p : String) : Bool :=
  skipKeywords.any (fun k => litContains k.data p.data)

/-- One filesystem entry yielded by the walk in `transfer_to_sqlite`:
its path, whether it is a symlink, the outcome of `get_file_meta`
(`none` models a metadata-extraction failure), and whether the store
upsert for it succeeds. -/
structure WalkEntry where
  path : String
  isSymlink : Bool
  meta : Option FileMeta
  insertOk : Bool
deriving DecidableEq, Repr

/-- Processing of one walk entry inside `transfer_to_sqlite`: symlinks
and keyword-matching paths are filtered out, a failing `get_file_meta`
is silently skipped, a failing `insert_file_meta` is logged and skipped;
otherwise the record is upserted. -/
def processEntry (db : List FileMeta) (e : WalkEntry) : List FileMeta :=
  if e.isSymlink || containsSkipKeyword e.path then db
  else
    match e.meta with
    | none => db
    | some m => if e.insertOk then insertFileMeta db m else db

/-- The index state accumulated by the walk loop of `transfer_to_sqlite`
over the given entries, starting from `db`. -/
def crawlState (db : List FileMeta) (entries : List WalkEntry) :
    List FileMeta :=
  entries.foldl processEntry db

/-- `transfer_to_sqlite`: the whole walk runs inside one transaction
committed once at the end; `commitOk = false` models a transaction-level
storage failure of `tx.commit()`, which aborts the whole crawl. -/
def transferToSqlite (db : List FileMeta) (entries : List WalkEntry)
    (commitOk : Bool) : Except Unit (List FileMeta) :=
  if commitOk then Except.ok (crawlState db entries) else Except.error ()

/-- The records actually upserted by a crawl over the given entries, in
walk order: entries surviving the symlink/keyword filters whose metadata
extraction and upsert both succeed. -/
def effectiveMetas (entries : List WalkEntry) : List FileMeta :=
  entries.filterMap (fun e =>
    if e.isSymlink || containsSkipKeyword e.path then none
    else
      match e.meta with
      | none => none
      | some m => if e.insertOk then some m else none)

/-- The paths of a list of records. -/
def pathsOf (ms : List FileMeta) : List String :=
  ms.map FileMeta.path

/-- Records of `db` whose path is not among `P`. -/
def dropPaths (P : List String) (db : List FileMeta) : List FileMeta :=
  db.filter (fun r => !(P.any (fun q => q == r.path)))

/-- ASCII-case-insensitive "starts with" (used to state what the
unescaped LIKE prefix patterns actually compute). -/
def ciStarts : List Char → List Char → Bool
  | [], _ => true
  | _ :: _, [] => false
  | c :: p, a :: s => likeCharEq c a && ciStarts p s

/-- ASCII-case-insensitive substring containment. -/
def ciHas (p : List Char) : List Char → Bool
  | [] => ciStarts p []
  | a :: rest => ciStarts p (a :: rest) || ciHas p rest

/-- Modelled from the spec: "Normalize `P` by stripping a single
trailing separator if present" — removes at most one trailing `\`. -/
def stripSingleTrailing (l : List Char) : List Char :=
  match l.getLast? with
  | some c => if c = '\\' then l.dropLast else l
  | none => l

/-- Modelled from the spec: "Extension is computed by splitting `name`
on the last `.` when present; absent otherwise" — no further
conditions. -/
def specSplitExtension (n : String) : Option String :=
  match splitAtLastDot n.data with
  | none => none
  | some (_, after) => some (String.mk after)

/-- Modelled from the spec: the subtree-size contract "sum of `size`
over all records whose `path` begins with `P`" with a literal,
case-sensitive string-prefix test. -/
def specLiteralSubtreeSize (db : List FileMeta) (p : String) : Nat :=
  ((db.filter (fun r => p.data.isPrefixOf r.path.data)).map
    (fun r => r.size)).sum

/-- Modelled from the spec: the search contract with a literal,
case-sensitive substring test on `name` and exact extension equality
when the extension argument is non-empty. -/
def specSearchLiteral (db : List FileMeta) (name extension : String) :
    List FileMeta :=
  if extension = "" then
    db.filter (fun r => litContains name.data r.name.data)
  else
    db.filter (fun r =>
      litContains name.data r.name.data && r.extension == some extension)

/-- The amended extension rule: split the name on the last `.` when one
is present, except that a name whose only dot is the leading one (a
dotfile) and the special name `..` have no extension. -/
def amendedExtension (n : String) : Option String :=
  match splitAtLastDot n.data with
  | none => none
  | some (before, after) =>
    if n = ".." ∨ before = [] then none else some (String.mk after)

/-!
## Helper lemmas

Characterizations of the modelled SQLite LIKE patterns, and list
bookkeeping for the upsert fold.
-/

/-- Collecting rows that all extracted successfully returns them all. -/
theorem collectRows_map_ok (l : List FileMeta) :
    collectRows (l.map Except.ok) = l := by
  induction l with
  | nil => rfl
  | cons a l ih =>
    simp only [collectRows, List.map_cons, List.filterMap_cons] at ih ⊢
    simpa using ih

/-- A bare `%` pattern (no ESCAPE) matches every string. -/
theorem likeMatch_star_nil (s : List Char) :
    likeMatch none ['%'] s = true := by
  induction s with
  | nil => decide
  | cons a s ih =>
    simp only [likeMatch, suffixes, List.any_cons] at ih ⊢
    simpa using ih

/-- A wildcard-free pattern followed by `%` (no ESCAPE) matches exactly
the strings starting, ASCII-case-insensitively, with the pattern. -/
theorem likeMatch_ci_starts :
    ∀ p : List Char, '%' ∉ p → '_' ∉ p →
      ∀ s, likeMatch none (p ++ ['%']) s = ciStarts p s := by
  intro p
  induction p with
  | nil =>
    intro _ _ s
    simpa [ciStarts] using likeMatch_star_nil s
  | cons c p ih =>
    intro hp1 hp2 s
    have hc1 : ¬ c = '%' := fun h => hp1 (by simp [h])
    have hc2 : ¬ c = '_' := fun h => hp2 (by simp [h])
    have hp1' : '%' ∉ p := fun h => hp1 (List.mem_cons_of_mem _ h)
    have hp2' : '_' ∉ p := fun h => hp2 (List.mem_cons_of_mem _ h)
    cases s with
    | nil =>
      rw [likeMatch.eq_def]
      simp [ciStarts, hc1, hc2]
    | cons a s2 =>
      rw [likeMatch.eq_def]
      simp [ciStarts, hc1, hc2, ih hp1' hp2' s2]

/-- Case-insensitive containment, expressed over all suffixes. -/
theorem ciHas_eq_any (p : List Char) :
    ∀ s, ciHas p s = (suffixes s).any (ciStarts p) := by
  intro s
  induction s with
  | nil => simp [ciHas, suffixes]
  | cons a s ih => simp [ciHas, suffixes, List.any_cons, ih]

/-- The search pattern `%fragment%` (no ESCAPE), for a wildcard-free
fragment, matches exactly the strings containing the fragment
ASCII-case-insensitively. -/
theorem likeMatch_ci_has (p : List Char) (hp1 : '%' ∉ p) (hp2 : '_' ∉ p)
    (s : List Char) :
    likeMatch none ('%' :: (p ++ ['%'])) s = ciHas p s := by
  have h1 : likeMatch none ('%' :: (p ++ ['%'])) s =
      (suffixes s).any (likeMatch none (p ++ ['%'])) := by
    rw [likeMatch.eq_def]
    simp
  rw [h1, ciHas_eq_any]
  congr 1
  funext t
  exact likeMatch_ci_starts p hp1 hp2 t

/-- Shape of any string matched by `list_children`'s pattern, for a
directory without `%`: the pattern `escaped(d)` + `\%` under `ESCAPE '\'`
forces the string to be some `s0` of the directory's length followed by
one character matching the (escaped, hence literal) `%`. -/
theorem likeChild_shape :
    ∀ d : List Char, '%' ∉ d → ∀ s,
      likeMatch (some '\\') (escapeBackslashes d ++ ['\\', '%']) s = true →
      ∃ s0 a, s = s0 ++ [a] ∧ s0.length = d.length ∧ likeCharEq '%' a = true := by
  intro d
  induction d with
  | nil =>
    intro _ s h
    have hpat : escapeBackslashes [] ++ ['\\', '%'] = ['\\', '%'] := rfl
    rw [hpat] at h
    cases s with
    | nil =>
      rw [likeMatch.eq_def] at h
      simp at h
    | cons a s2 =>
      rw [likeMatch.eq_def] at h
      simp [likeMatch.eq_1] at h
      obtain ⟨h1, h2⟩ := h
      exact ⟨[], a, by simp [h2], by simp, h1⟩
  | cons c d' ih =>
    intro hp s h
    have hp' : '%' ∉ d' := fun hx => hp (List.mem_cons_of_mem _ hx)
    have hc : ¬ c = '%' := fun hx => hp (by simp [hx])
    by_cases hbs : c = '\\'
    · subst hbs
      have hpat : escapeBackslashes ('\\' :: d') ++ ['\\', '%'] =
          '\\' :: '\\' :: (escapeBackslashes d' ++ ['\\', '%']) := by
        simp [escapeBackslashes]
      rw [hpat] at h
      cases s with
      | nil =>
        rw [likeMatch.eq_def] at h
        simp at h
      | cons a s2 =>
        rw [likeMatch.eq_def] at h
        simp at h
        obtain ⟨s0, b, hs, hlen, hb⟩ := ih hp' s2 h.2
        exact ⟨a :: s0, b, by simp [hs], by simp [hlen], hb⟩
    · have hpat : escapeBackslashes (c :: d') ++ ['\\', '%'] =
          c :: (escapeBackslashes d' ++ ['\\', '%']) := by
        simp [escapeBackslashes, hbs]
      rw [hpat] at h
      have hesc : ¬ (some '\\' : Option Char) = some c := by
        intro he
        injection he with he'
        exact hbs he'.symm
      by_cases hu : c = '_'
      · subst hu
        cases s with
        | nil =>
          rw [likeMatch.eq_def] at h
          simp [hesc, hc] at h
        | cons a s2 =>
          rw [likeMatch.eq_def] at h
          simp [hesc, hc] at h
          obtain ⟨s0, b, hs, hlen, hb⟩ := ih hp' s2 h
          exact ⟨a :: s0, b, by simp [hs], by simp [hlen], hb⟩
      · cases s with
        | nil =>
          rw [likeMatch.eq_def] at h
          simp [hesc, hc, hu] at h
        | cons a s2 =>
          rw [likeMatch.eq_def] at h
          simp [hesc, hc, hu] at h
          obtain ⟨s0, b, hs, hlen, hb⟩ := ih hp' s2 h.2
          exact ⟨a :: s0, b, by simp [hs], by simp [hlen], hb⟩

/-- Every path keeps a (possibly empty) block of trailing separators
beyond its normalized form. -/
theorem normDir_decomp (l : List Char) :
    ∃ k, l = normDirChars l ++ List.replicate k '\\' := by
  refine ⟨(l.reverse.takeWhile (fun c => c == '\\')).length, ?_⟩
  have h1 : l.reverse.takeWhile (fun c => c == '\\') =
      List.replicate (l.reverse.takeWhile (fun c => c == '\\')).length '\\' := by
    apply List.eq_replicate_of_mem
    intro b hb
    have := List.mem_takeWhile_imp hb
    simpa using this
  conv_lhs => rw [← List.reverse_reverse l,
    ← List.takeWhile_append_dropWhile (p := fun c => c == '\\') (l := l.reverse)]
  rw [List.reverse_append, normDirChars]
  congr 1
  conv_lhs => rw [h1]
  rw [List.reverse_replicate]

/-- Normalization only removes characters. -/
theorem mem_normDirChars {x : Char} {l : List Char}
    (h : x ∈ normDirChars l) : x ∈ l := by
  rw [normDirChars, List.mem_reverse] at h
  exact List.mem_reverse.mp ((List.dropWhile_sublist _).subset h)

/-- Appending one separator does not change the normalized directory. -/
theorem normDirChars_append_bs (l : List Char) :
    normDirChars (l ++ ['\\']) = normDirChars l := by
  simp [normDirChars, List.reverse_append, List.dropWhile_cons]

/-- A path without separators is already normalized. -/
theorem normDirChars_of_no_bs {l : List Char} (h : '\\' ∉ l) :
    normDirChars l = l := by
  rw [normDirChars]
  have h2 : l.reverse.dropWhile (fun c => c == '\\') = l.reverse := by
    cases hr : l.reverse with
    | nil => simp
    | cons a t =>
      have ha : a ∈ l := by
        rw [← List.mem_reverse, hr]
        exact List.mem_cons_self _ _
      have ha' : ¬ a = '\\' := fun he => h (he ▸ ha)
      simp [List.dropWhile_cons, ha']
  rw [h2, List.reverse_reverse]

/-- String append acts as list append on the character data. -/
theorem strData_append (s t : String) : (s ++ t).data = s.data ++ t.data := rfl

/-- A string with empty character data is the empty string. -/
theorem strData_eq_nil {s : String} (h : s.data = []) : s = "" := by
  cases s with
  | mk l => rw [show l = [] from h]

/-- The fold of upserts decomposes into the survivors of the old state
followed by the records produced from the empty state. -/
theorem foldIns_split :
    ∀ (ms : List FileMeta) (db : List FileMeta),
      ms.foldl insertFileMeta db =
        dropPaths (pathsOf ms) db ++ ms.foldl insertFileMeta [] := by
  intro ms
  induction ms with
  | nil =>
    intro db
    simp [dropPaths, pathsOf]
  | cons m ms ih =>
    intro db
    rw [List.foldl_cons, ih (insertFileMeta db m), List.foldl_cons,
      ih (insertFileMeta [] m), ← List.append_assoc]
    congr 1
    have hins : insertFileMeta [] m = [m] := rfl
    rw [hins, insertFileMeta, dropPaths, dropPaths, dropPaths,
      List.filter_append, List.filter_filter]
    have hpaths : pathsOf (m :: ms) = m.path :: pathsOf ms := rfl
    rw [hpaths]
    congr 1
    apply List.filter_congr
    intro r _
    simp only [List.any_cons, Bool.not_or]
    by_cases hr : r.path = m.path
    · have e1 : (r.path == m.path) = true := by simp [hr]
      have e2 : (m.path == r.path) = true := by simp [hr]
      rw [e1, e2]
      simp
    · have e1 : (r.path == m.path) = false := by simp [hr]
      have e2 : (m.path == r.path) = false := by simp [Ne.symm hr]
      rw [e1, e2]
      simp

/-- Every record in the fold's result comes from the initial state or
from the upserted list. -/
theorem mem_foldIns :
    ∀ (ms : List FileMeta) (db : List FileMeta) (r : FileMeta),
      r ∈ ms.foldl insertFileMeta db → r ∈ db ∨ r ∈ ms := by
  intro ms
  induction ms with
  | nil => intro db r h; exact Or.inl h
  | cons m ms ih =>
    intro db r h
    rw [List.foldl_cons] at h
    rcases ih (insertFileMeta db m) r h with h1 | h1
    · rw [insertFileMeta] at h1
      rcases List.mem_append.mp h1 with h2 | h2
      · exact Or.inl (List.mem_of_mem_filter h2)
      · simp at h2
        exact Or.inr (by simp [h2])
    · exact Or.inr (List.mem_cons_of_mem _ h1)

/-- Re-folding the same upserts over an already-folded state changes
nothing. -/
theorem foldIns_idem (ms : List FileMeta) (db : List FileMeta) :
    ms.foldl insertFileMeta (ms.foldl insertFileMeta db) =
      ms.foldl insertFileMeta db := by
  rw [foldIns_split ms (ms.foldl insertFileMeta db), foldIns_split ms db]
  rw [dropPaths, List.filter_append]
  have h1 : (dropPaths (pathsOf ms) db).filter
      (fun r => !((pathsOf ms).any (fun q => q == r.path))) =
      dropPaths (pathsOf ms) db := by
    rw [dropPaths, List.filter_filter]
    apply List.filter_congr
    intro r _
    simp
  have h2 : (ms.foldl insertFileMeta []).filter
      (fun r => !((pathsOf ms).any (fun q => q == r.path))) = [] := by
    rw [List.filter_eq_nil_iff]
    intro r hr
    rcases mem_foldIns ms [] r hr with h3 | h3
    · simp at h3
    · simp only [Bool.not_eq_true', Bool.not_eq_false]
      exact List.any_eq_true.mpr ⟨r.path, List.mem_map_of_mem _ h3, by simp⟩
  rw [h1, h2]
  simp

/-- When no upserted record carries path `p`, the fold leaves the
records at `p` unchanged. -/
theorem foldIns_filter_no_path :
    ∀ (ms : List FileMeta) (db : List FileMeta) (p : String),
      ms.filter (fun m => m.path == p) = [] →
      (ms.foldl insertFileMeta db).filter (fun r => r.path == p) =
        db.filter (fun r => r.path == p) := by
  intro ms
  induction ms with
  | nil => intro db p _; rfl
  | cons m ms ih =>
    intro db p h
    rw [List.filter_cons] at h
    by_cases hm : (m.path == p) = true
    · rw [if_pos hm] at h
      exact absurd h (by simp)
    · rw [if_neg hm] at h
      rw [List.foldl_cons, ih _ p h, insertFileMeta, List.filter_append,
        List.filter_filter]
      have hmp : ¬ m.path = p := by simpa using hm
      have h1 : [m].filter (fun r => r.path == p) = [] := by
        simp [List.filter_cons, hm]
      rw [h1, List.append_nil]
      apply List.filter_congr
      intro r _
      by_cases hr : r.path = p
      · simp [hr, Ne.symm hmp]
      · simp [hr]

/-- When the upserted list carries exactly one record at path `p`, the
fold stores exactly that record at `p`, whatever the initial state. -/
theorem foldIns_filter_one :
    ∀ (ms : List FileMeta) (db : List FileMeta) (p : String) (m' : FileMeta),
      ms.filter (fun m => m.path == p) = [m'] →
      (ms.foldl insertFileMeta db).filter (fun r => r.path == p) = [m'] := by
  intro ms
  induction ms with
  | nil => intro db p m' h; exact absurd h (by simp)
  | cons m ms ih =>
    intro db p m' h
    rw [List.filter_cons] at h
    by_cases hm : (m.path == p) = true
    · rw [if_pos hm] at h
      have h1 : m = m' ∧ ms.filter (fun x => x.path == p) = [] := by
        constructor
        · exact (List.cons_eq_cons.mp h).1
        · exact (List.cons_eq_cons.mp h).2
      obtain ⟨h1, h2⟩ := h1
      subst h1
      rw [List.foldl_cons, foldIns_filter_no_path ms _ p h2,
        insertFileMeta, List.filter_append, List.filter_filter]
      have hmp : m.path = p := by simpa using hm
      have h3 : db.filter (fun a => (a.path == p && !(a.path == m.path))) = [] := by
        rw [List.filter_eq_nil_iff]
        intro r _
        simp [hmp]
      have h4 : [m].filter (fun r => r.path == p) = [m] := by
        simp [List.filter_cons, hm]
      rw [h3, h4, List.nil_append]
    · rw [if_neg hm] at h
      rw [List.foldl_cons]
      exact ih _ p m' h

/-- A walk entry whose metadata extraction or upsert fails leaves the
index unchanged. -/
theorem processEntry_noop (e : WalkEntry)
    (h : e.meta = none ∨ e.insertOk = false) (db : List FileMeta) :
    processEntry db e = db := by
  by_cases h1 : (e.isSymlink || containsSkipKeyword e.path) = true
  · simp [processEntry, h1]
  · rcases h with h | h
    · simp [processEntry, h1, h]
    · cases hm : e.meta with
      | none => simp [processEntry, h1, hm]
      | some m => simp [processEntry, h1, hm, h]

/-- The walk loop of the crawl is the fold of upserts over the records
that survive its filters and failure handling. -/
theorem crawlState_eq_foldIns :
    ∀ (entries : List WalkEntry) (db : List FileMeta),
      crawlState db entries = (effectiveMetas entries).foldl insertFileMeta db := by
  intro entries
  induction entries with
  | nil => intro db; rfl
  | cons e es ih =>
    intro db
    have hstep : crawlState db (e :: es) = crawlState (processEntry db e) es := rfl
    rw [hstep]
    by_cases h1 : (e.isSymlink || containsSkipKeyword e.path) = true
    · have h1' : e.isSymlink = true ∨ containsSkipKeyword e.path = true := by
        simpa using h1
      rw [show processEntry db e = db by simp [processEntry, h1]]
      rw [show effectiveMetas (e :: es) = effectiveMetas es by
        simp [effectiveMetas, List.filterMap_cons, h1']]
      exact ih db
    · have h1' : ¬ (e.isSymlink = true ∨ containsSkipKeyword e.path = true) := by
        simpa using h1
      cases hm : e.meta with
      | none =>
        rw [show processEntry db e = db by simp [processEntry, h1, hm]]
        rw [show effectiveMetas (e :: es) = effectiveMetas es by
          simp [effectiveMetas, List.filterMap_cons, h1', hm]]
        exact ih db
      | some m =>
        cases hio : e.insertOk with
        | false =>
          rw [show processEntry db e = db by simp [processEntry, h1, hm, hio]]
          rw [show effectiveMetas (e :: es) = effectiveMetas es by
            simp [effectiveMetas, List.filterMap_cons, h1', hm, hio]]
          exact ih db
        | true =>
          rw [show processEntry db e = insertFileMeta db m by
            simp [processEntry, h1, hm, hio]]
          rw [show effectiveMetas (e :: es) = m :: effectiveMetas es by
            simp [effectiveMetas, List.filterMap_cons, h1', hm, hio]]
          rw [List.foldl_cons]
          exact ih (insertFileMeta db m)

/-- The extension computed by the code (Rust `Path::extension`) follows
the amended split-at-last-dot rule with the dotfile and `..` exceptions. -/
theorem extensionOfFileName_eq_amended (n : String) :
    extensionOfFileName n = amendedExtension n := by
  by_cases hdd : n = ".."
  · subst hdd
    decide
  · unfold extensionOfFileName amendedExtension
    rw [if_neg hdd]
    cases hsp : splitAtLastDot n.data with
    | none => rfl
    | some ba =>
      obtain ⟨b, a⟩ := ba
      simp [hdd]

/-!
## Claim theorems
-/

/-- C1: on the spec's hierarchy example (records `root`, `root\a`,
`root\a\b`, `root\c`), `list_children` of `root` returns the empty list,
not `{root\a, root\c}` as the claim states: under `ESCAPE '\'` the
pattern's trailing `\%` denotes a literal `%` instead of separator plus
wildcard, so the LIKE condition and the depth condition are jointly
unsatisfiable. -/
theorem c1_list_children_empty_on_hierarchy_example :
    listChildren
      [⟨"root", "root", none, 1, 0⟩, ⟨"a", "root\\a", none, 2, 0⟩,
       ⟨"b", "root\\a\\b", none, 3, 0⟩, ⟨"c", "root\\c", none, 4, 0⟩]
      "root" = [] := by decide

/-- C2 counterexample: `get_directory_size` is not a literal
string-prefix sum.  A record at path `b` is summed when querying `B`
(LIKE is ASCII-case-insensitive), and a record at path `ab` is summed
when querying `a_` (`_` is a LIKE wildcard), in both cases against the
claim's literal-prefix contract, which yields 0. -/
theorem c2_like_prefix_not_literal_counterexample :
    getDirectorySize [⟨"b", "b", none, 7, 0⟩] "B" ≠
      specLiteralSubtreeSize [⟨"b", "b", none, 7, 0⟩] "B" ∧
    getDirectorySize [⟨"ab", "ab", none, 3, 0⟩] "a_" ≠
      specLiteralSubtreeSize [⟨"ab", "ab", none, 3, 0⟩] "a_" := by
  decide

/-- C2 (amended): for a query path without the LIKE wildcards `%` and
`_`, `get_directory_size` returns the sum of `size` over exactly the
records whose path starts with the query ASCII-case-insensitively
(including the path itself and descendants at any depth, with no
separator-boundary requirement), and returns 0, not an error, when no
record matches. -/
theorem c2_subtree_size_ci_prefix_sum (db : List FileMeta) (P : String)
    (hp1 : '%' ∉ P.data) (hp2 : '_' ∉ P.data) :
    getDirectorySize db P =
      ((db.filter (fun r => ciStarts P.data r.path.data)).map
        (fun r => r.size)).sum ∧
    ((∀ r ∈ db, ciStarts P.data r.path.data = false) →
      getDirectorySize db P = 0) := by
  have hfilter :
      db.filter (fun r => likeMatch none (P.data ++ ['%']) r.path.data) =
        db.filter (fun r => ciStarts P.data r.path.data) := by
    apply List.filter_congr
    intro r _
    exact likeMatch_ci_starts P.data hp1 hp2 r.path.data
  constructor
  · unfold getDirectorySize
    rw [hfilter]
  · intro hnone
    unfold getDirectorySize
    rw [hfilter]
    have hne : db.filter (fun r => ciStarts P.data r.path.data) = [] := by
      rw [List.filter_eq_nil_iff]
      intro r hr
      simp [hnone r hr]
    rw [hne]
    rfl

/-- C2 witness: a concrete instantiation of the amended subtree-size
theorem. -/
theorem c2_subtree_size_ci_prefix_sum_witness :
    ('%' ∉ ("root" : String).data) ∧ ('_' ∉ ("root" : String).data) ∧
    getDirectorySize
        [⟨"x", "root\\x", none, 4, 0⟩, ⟨"z", "other", none, 9, 0⟩] "root" =
      ((([⟨"x", "root\\x", none, 4, 0⟩, ⟨"z", "other", none, 9, 0⟩] :
          List FileMeta).filter
        (fun r => ciStarts ("root" : String).data r.path.data)).map
        (fun r => r.size)).sum :=
  ⟨by decide, by decide,
    (c2_subtree_size_ci_prefix_sum
      [⟨"x", "root\\x", none, 4, 0⟩, ⟨"z", "other", none, 9, 0⟩] "root"
      (by decide) (by decide)).1⟩

/-- C3 counterexample: for the dotfile `.gitignore` the code stores no
extension (Rust `Path::extension`), while the claim's rule — split the
name on the last `.` whenever one is present — yields `gitignore`. -/
theorem c3_dotfile_extension_counterexample :
    getFileMeta (some ⟨3, some 5⟩) ".gitignore" =
      Except.ok ⟨".gitignore", ".gitignore", none, 3, 5⟩ ∧
    specSplitExtension ".gitignore" = some "gitignore" :=
  ⟨rfl, by decide⟩

/-- C3 (amended): every record produced by `get_file_meta` carries the
extension obtained by splitting its name on the last `.` when one is
present and the part before that dot is non-empty; a dotfile (leading
dot only) and the name `..` have no extension. -/
theorem c3_extension_amended_rule (stat : Option SysMetadata) (path : String)
    (m : FileMeta) (h : getFileMeta stat path = Except.ok m) :
    m.extension = amendedExtension m.name := by
  cases stat with
  | none => exact absurd h (by simp [getFileMeta])
  | some md =>
    cases hmod : md.modified with
    | none =>
      rw [show getFileMeta (some md) path = Except.error () by
        simp [getFileMeta, hmod]] at h
      exact absurd h (by simp)
    | some t =>
      rw [show getFileMeta (some md) path = Except.ok
          { name := (fileNameOf path).getD ""
            path := path
            extension :=
              match fileNameOf path with
              | none => none
              | some n => extensionOfFileName n
            size := md.len
            modified := if t < 0 then 0 else t.toNat } by
        simp [getFileMeta, hmod]] at h
      have hm := Except.ok.inj h
      rw [← hm]
      cases hfn : fileNameOf path with
      | none => simp [hfn, amendedExtension, splitAtLastDot]
      | some n =>
        simp only [hfn]
        exact extensionOfFileName_eq_amended n

/-- C3 witness: a concrete instantiation of the amended extension rule. -/
theorem c3_extension_amended_rule_witness :
    getFileMeta (some ⟨2, some 3⟩) "a.txt" =
      Except.ok ⟨"a.txt", "a.txt", some "txt", 2, 3⟩ ∧
    (⟨"a.txt", "a.txt", some "txt", 2, 3⟩ : FileMeta).extension =
      amendedExtension (⟨"a.txt", "a.txt", some "txt", 2, 3⟩ : FileMeta).name :=
  ⟨rfl, c3_extension_amended_rule (some ⟨2, some 3⟩) "a.txt" _ rfl⟩

/-- C4 counterexample: an unreadable modification time
(`metadata.modified()` failing) is propagated by `?` as an error — the
call fails instead of producing a record with `modified = 0` as the
claim states. -/
theorem c4_unreadable_mtime_counterexample :
    getFileMeta (some ⟨5, none⟩) "f" = Except.error () := rfl

/-- C4 (amended): a modification time older than the Unix epoch is
clamped to 0, but an unreadable modification time makes `get_file_meta`
fail with an error rather than yielding 0. -/
theorem c4_modified_clamp_amended (md : SysMetadata) (path : String) :
    (md.modified = none → getFileMeta (some md) path = Except.error ()) ∧
    (∀ t : Int, md.modified = some t → t < 0 →
      Except.map (fun m => m.modified) (getFileMeta (some md) path) =
        Except.ok 0) := by
  constructor
  · intro h
    simp [getFileMeta, h]
  · intro t ht hneg
    simp [getFileMeta, ht, Except.map, hneg]

/-- C4 witness: concrete instantiations of both amended behaviours. -/
theorem c4_modified_clamp_amended_witness :
    getFileMeta (some ⟨7, none⟩) "f" = Except.error () ∧
    Except.map (fun m => m.modified) (getFileMeta (some ⟨3, some (-5)⟩) "g") =
      Except.ok 0 :=
  ⟨(c4_modified_clamp_amended ⟨7, none⟩ "f").1 rfl,
    (c4_modified_clamp_amended ⟨3, some (-5)⟩ "g").2 (-5) rfl (by decide)⟩

/-- C5 counterexample: `search_files` is not a literal substring filter.
A record named `A` is returned for fragment `a` (LIKE is
ASCII-case-insensitive), and a record named `xy` is returned for
fragment `x_` (`_` is a LIKE wildcard); the claim's literal contract
returns neither. -/
theorem c5_search_not_literal_counterexample :
    searchFiles [⟨"A", "A", none, 0, 0⟩] "a" "" ≠
      specSearchLiteral [⟨"A", "A", none, 0, 0⟩] "a" "" ∧
    searchFiles [⟨"xy", "xy", none, 0, 0⟩] "x_" "" ≠
      specSearchLiteral [⟨"xy", "xy", none, 0, 0⟩] "x_" "" := by
  decide

/-- C5 (amended): for a fragment without the LIKE wildcards `%` and `_`,
`search_files` returns exactly the records whose name contains the
fragment ASCII-case-insensitively; a non-empty extension argument
additionally requires the stored extension to equal it exactly (a
missing extension never matches), while an empty extension argument
applies no extension filter at all. -/
theorem c5_search_ci_substring (db : List FileMeta) (frag ext : String)
    (hp1 : '%' ∉ frag.data) (hp2 : '_' ∉ frag.data) :
    (ext = "" →
      searchFiles db frag ext =
        db.filter (fun r => ciHas frag.data r.name.data)) ∧
    (ext ≠ "" →
      searchFiles db frag ext =
        db.filter (fun r =>
          ciHas frag.data r.name.data && r.extension == some ext)) := by
  have hname : ∀ s : List Char,
      likeMatch none (searchLikePattern frag) s = ciHas frag.data s := by
    intro s
    have hpat : searchLikePattern frag = '%' :: (frag.data ++ ['%']) := rfl
    rw [hpat]
    exact likeMatch_ci_has frag.data hp1 hp2 s
  constructor
  · intro he
    unfold searchFiles searchFilesMatches
    rw [if_pos he, collectRows_map_ok]
    apply List.filter_congr
    intro r _
    exact hname r.name.data
  · intro he
    unfold searchFiles searchFilesMatches
    rw [if_neg he, collectRows_map_ok]
    apply List.filter_congr
    intro r _
    rw [hname r.name.data]

/-- C5 witness: the spec's filter-composition example, under the
amended (case-insensitive) reading. -/
theorem c5_search_ci_substring_witness :
    ('%' ∉ ("a" : String).data) ∧ ('_' ∉ ("a" : String).data) ∧
    searchFiles
        [⟨"a.txt", "a.txt", some "txt", 0, 0⟩,
         ⟨"ab.txt", "ab.txt", some "txt", 0, 0⟩,
         ⟨"a.md", "a.md", some "md", 0, 0⟩] "a" "txt" =
      [⟨"a.txt", "a.txt", some "txt", 0, 0⟩,
       ⟨"ab.txt", "ab.txt", some "txt", 0, 0⟩,
       ⟨"a.md", "a.md", some "md", 0, 0⟩].filter
        (fun r => ciHas ("a" : String).data r.name.data &&
          r.extension == some "txt") :=
  ⟨by decide, by decide,
    (c5_search_ci_substring
      [⟨"a.txt", "a.txt", some "txt", 0, 0⟩,
       ⟨"ab.txt", "ab.txt", some "txt", 0, 0⟩,
       ⟨"a.md", "a.md", some "md", 0, 0⟩] "a" "txt"
      (by decide) (by decide)).2 (by decide)⟩

/-- C6 counterexample: normalization strips every trailing separator,
not a single one — on `a\\` the code normalizes to `a`, while stripping
a single trailing separator leaves `a\`. -/
theorem c6_strip_single_counterexample :
    normDirChars ("a\\\\" : String).data ≠
      stripSingleTrailing ("a\\\\" : String).data := by decide

/-- C6 (amended): `list_children` normalizes the input by stripping all
trailing separators; consequently a query with a trailing separator
returns the same records as the query without it, and a root path with
no separators gets target child depth 1. -/
theorem c6_normalization_amended (db : List FileMeta) (dir : String) :
    listChildren db (dir ++ "\\") = listChildren db dir ∧
    normDirChars (dir ++ "\\").data = normDirChars dir.data ∧
    ('\\' ∉ dir.data → targetSlashCount dir = 1) := by
  have hdata : (dir ++ "\\").data = dir.data ++ ['\\'] := strData_append dir "\\"
  have hnorm : normDirChars (dir ++ "\\").data = normDirChars dir.data := by
    rw [hdata, normDirChars_append_bs]
  refine ⟨?_, hnorm, ?_⟩
  · unfold listChildren listChildrenMatches childLikePattern targetSlashCount
    rw [hnorm]
  · intro hno
    unfold targetSlashCount countBS
    rw [normDirChars_of_no_bs hno, List.count_eq_zero.mpr hno]

/-- C6 witness: a concrete instantiation of the amended normalization
behaviour. -/
theorem c6_normalization_amended_witness :
    listChildren [⟨"a", "root\\a", none, 2, 0⟩] ("root" ++ "\\") =
      listChildren [⟨"a", "root\\a", none, 2, 0⟩] "root" ∧
    ('\\' ∉ ("root" : String).data) ∧ targetSlashCount "root" = 1 :=
  ⟨(c6_normalization_amended [⟨"a", "root\\a", none, 2, 0⟩] "root").1,
    by decide,
    (c6_normalization_amended [⟨"a", "root\\a", none, 2, 0⟩] "root").2.2
      (by decide)⟩

/-- C7 counterexample: with a stored directory path `a%` (the `%` is a
legal filename character but a LIKE wildcard), `list_children` of `a%`
returns the record `a%x\y%`, which extends `a%` with no separator at
the junction — the claimed separator boundary is violated. -/
theorem c7_percent_dir_boundary_counterexample :
    listChildren [⟨"a%", "a%", none, 0, 0⟩, ⟨"y%", "a%x\\y%", none, 5, 0⟩]
        "a%" = [⟨"y%", "a%x\\y%", none, 5, 0⟩] ∧
    ("a%x\\y%" : String) = "a%" ++ "x\\y%" ∧
    ("x\\y%" : String).data.head? ≠ some '\\' := by decide

/-- C7 (amended): for a queried path containing no `%`, `list_children`
never returns a record whose path extends the queried path without an
intervening separator. -/
theorem c7_boundary_no_percent (db : List FileMeta) (p t : String)
    (r : FileMeta) (hp : '%' ∉ p.data) (ht : t ≠ "")
    (hh : t.data.head? ≠ some '\\') (hr : r.path = p ++ t) :
    r ∉ listChildren db p := by
  intro hmem
  unfold listChildren at hmem
  rw [collectRows_map_ok] at hmem
  unfold listChildrenMatches at hmem
  rw [List.mem_filter] at hmem
  obtain ⟨-, hcond⟩ := hmem
  rw [Bool.and_eq_true] at hcond
  obtain ⟨hlike, hcount⟩ := hcond
  have hcount' : countBS r.path.data = targetSlashCount p := by
    simpa using hcount
  have hd : '%' ∉ normDirChars p.data := fun hx => hp (mem_normDirChars hx)
  unfold childLikePattern at hlike
  obtain ⟨s0, a, hs, hlen, hca⟩ :=
    likeChild_shape (normDirChars p.data) hd _ hlike
  obtain ⟨k, hk⟩ := normDir_decomp p.data
  have hrp : r.path.data = p.data ++ t.data := by rw [hr, strData_append]
  rw [hrp] at hs hcount'
  have hsl := congrArg List.length hs
  rw [hk] at hsl
  simp only [List.length_append, List.length_replicate, List.length_cons,
    List.length_nil] at hsl
  have htne : t.data ≠ [] := fun hnil => ht (strData_eq_nil hnil)
  have htpos : 1 ≤ t.data.length := by
    cases hdt : t.data with
    | nil => exact absurd hdt htne
    | cons x xs => simp
  have hk0 : k = 0 := by omega
  subst hk0
  have hk' : normDirChars p.data = p.data := by simpa using hk.symm
  rw [hk'] at hlen
  have hinj := List.append_inj hs (by rw [hlen])
  obtain ⟨-, hm2⟩ := hinj
  have hca' : ¬ a = '\\' := by
    intro hae
    rw [hae] at hca
    exact absurd hca (by decide)
  have hl0 : List.count '\\' t.data = 0 := by
    rw [hm2]
    simp [List.count_cons, hca']
  unfold targetSlashCount at hcount'
  rw [hk'] at hcount'
  unfold countBS at hcount'
  rw [List.count_append, hl0] at hcount'
  omega

/-- C7 witness: the spec's `root`/`rootXYZ` example under the amended
claim. -/
theorem c7_boundary_no_percent_witness :
    ('%' ∉ ("root" : String).data) ∧ ("XYZ" : String) ≠ "" ∧
    ("XYZ" : String).data.head? ≠ some '\\' ∧
    (⟨"rootXYZ", "rootXYZ", none, 0, 0⟩ : FileMeta) ∉
      listChildren
        [⟨"root", "root", none, 0, 0⟩, ⟨"rootXYZ", "rootXYZ", none, 0, 0⟩]
        "root" :=
  ⟨by decide, by decide, by decide,
    c7_boundary_no_percent
      [⟨"root", "root", none, 0, 0⟩, ⟨"rootXYZ", "rootXYZ", none, 0, 0⟩]
      "root" "XYZ" ⟨"rootXYZ", "rootXYZ", none, 0, 0⟩
      (by decide) (by decide) (by decide) (by decide)⟩

/-- C8: the crawl is idempotent — re-crawling the same entries from the
once-crawled state commits the same final index state — and when the
second crawl produces exactly one record at a path, the committed state
stores exactly that (newer) record at the path, whatever was stored
before. -/
theorem c8_crawl_idempotent_and_overwrite :
    (∀ (db : List FileMeta) (es : List WalkEntry),
      transferToSqlite (crawlState db es) es true =
        transferToSqlite db es true) ∧
    (∀ (db : List FileMeta) (es1 es2 : List WalkEntry) (p : String)
      (m' : FileMeta),
      (effectiveMetas es2).filter (fun m => m.path == p) = [m'] →
      (crawlState (crawlState db es1) es2).filter (fun r => r.path == p) =
        [m']) := by
  constructor
  · intro db es
    have hidem : crawlState (crawlState db es) es = crawlState db es := by
      simp only [crawlState_eq_foldIns]
      exact foldIns_idem _ _
    unfold transferToSqlite
    rw [hidem]
  · intro db es1 es2 p m' h
    rw [crawlState_eq_foldIns]
    exact foldIns_filter_one _ _ p m' h

/-- C8 witness: a path crawled with size 4 and re-crawled with size 9
ends up stored with size 9. -/
theorem c8_crawl_idempotent_and_overwrite_witness :
    (effectiveMetas [⟨"p", false, some ⟨"n", "p", none, 9, 0⟩, true⟩]).filter
      (fun m => m.path == "p") = [⟨"n", "p", none, 9, 0⟩] ∧
    (crawlState (crawlState [] [⟨"p", false, some ⟨"n", "p", none, 4, 0⟩, true⟩])
        [⟨"p", false, some ⟨"n", "p", none, 9, 0⟩, true⟩]).filter
      (fun r => r.path == "p") = [⟨"n", "p", none, 9, 0⟩] :=
  ⟨by decide,
    c8_crawl_idempotent_and_overwrite.2 []
      [⟨"p", false, some ⟨"n", "p", none, 4, 0⟩, true⟩]
      [⟨"p", false, some ⟨"n", "p", none, 9, 0⟩, true⟩] "p"
      ⟨"n", "p", none, 9, 0⟩ (by decide)⟩

/-- C9: an entry whose metadata extraction fails, or whose upsert
fails, is skipped and the crawl of the remaining entries proceeds
unchanged and still commits (exactly once, at the end); a
transaction-level failure of the final commit aborts the whole crawl
with an error. -/
theorem c9_bad_entry_skipped_commit_once (db : List FileMeta)
    (pre post : List WalkEntry) (e : WalkEntry)
    (h : e.meta = none ∨ e.insertOk = false) :
    transferToSqlite db (pre ++ e :: post) true =
      transferToSqlite db (pre ++ post) true ∧
    transferToSqlite db (pre ++ e :: post) true =
      Except.ok (crawlState db (pre ++ post)) ∧
    transferToSqlite db (pre ++ e :: post) false = Except.error () := by
  have hcs : crawlState db (pre ++ e :: post) = crawlState db (pre ++ post) := by
    unfold crawlState
    rw [List.foldl_append, List.foldl_append, List.foldl_cons,
      processEntry_noop e h]
  refine ⟨?_, ?_, rfl⟩
  · simp [transferToSqlite, hcs]
  · simp [transferToSqlite, hcs]

/-- C9 witness: a failing middle entry between two good entries is
skipped while the crawl succeeds. -/
theorem c9_bad_entry_skipped_commit_once_witness :
    ((⟨"bad", false, none, true⟩ : WalkEntry).meta = none ∨
      (⟨"bad", false, none, true⟩ : WalkEntry).insertOk = false) ∧
    transferToSqlite []
        ([⟨"x", false, some ⟨"x", "x", none, 1, 0⟩, true⟩] ++
          ⟨"bad", false, none, true⟩ ::
            [⟨"y", false, some ⟨"y", "y", none, 2, 0⟩, true⟩]) true =
      transferToSqlite []
        ([⟨"x", false, some ⟨"x", "x", none, 1, 0⟩, true⟩] ++
          [⟨"y", false, some ⟨"y", "y", none, 2, 0⟩, true⟩]) true :=
  ⟨Or.inl rfl,
    (c9_bad_entry_skipped_commit_once []
      [⟨"x", false, some ⟨"x", "x", none, 1, 0⟩, true⟩]
      [⟨"y", false, some ⟨"y", "y", none, 2, 0⟩, true⟩]
      ⟨"bad", false, none, true⟩ (Or.inl rfl)).1⟩

/-- C10: a row that fails during extraction or iteration is silently
dropped by `filter_map(Result::ok)`: the read query still succeeds and
returns exactly the successfully extracted rows — a partial result set
missing the failed row. -/
theorem c10_failed_rows_dropped (pre post : List FileMeta) :
    collectRows (pre.map Except.ok ++ Except.error () :: post.map Except.ok) =
      pre ++ post := by
  induction pre with
  | nil =>
    simp only [List.map_nil, List.nil_append]
    simp only [collectRows, List.filterMap_cons]
    exact collectRows_map_ok post
  | cons a pre ih =>
    simp only [List.map_cons, List.cons_append, collectRows,
      List.filterMap_cons] at ih ⊢
    simpa using ih
